import Mathlib

/-!
Verification of the statistical analysis engine of a gene expression
analysis program (`statistical_analysis.py` over the store loaded by
`gene_expression_data.py`).

Modelling conventions of the shallow embedding:

* expression values (Python `float`) are modelled as rationals `ℚ`;
* the store holds the ordered gene catalog (`gene_names`, read from the
  file header) and the mapping `gene_expression_values` from gene name to
  its ordered list of sample records.  The Python mapping is a
  `defaultdict(list)`, so the association list keeps the key set explicit:
  reading a missing key yields `[]`, and where the source reads through
  `defaultdict.__getitem__` in a way that can insert missing keys, the
  key-insertion effect is modelled separately (`dd_touch`);
* Python exceptions, and the error strings the source returns after
  catching its custom `NoGeneName` exception, are both modelled as
  `Except.error` carrying a typed `EngineError`;
* `set(...)` deduplication is modelled by `List.dedup`; the iteration
  order of a Python set is unspecified, and no claim depends on it;
* Python string comparison on value ties in the heap is lexicographic,
  modelled by the `≤` linear order on `String`.
-/

/-- One sample record `(sample_id, status, value)` of a gene series, as
appended by `GeneExpressionData.load_data`.  The status is the literal
string `"normal"` or `"HCC"` in the data (the spec groups NORMAL / CASE). -/
structure Sample where
  sample : String
  status : String
  value : ℚ
deriving DecidableEq

/-- The store produced by `GeneExpressionData.load_data`: the ordered gene
catalog from the header and the `defaultdict(list)` mapping each gene to
its ordered sample series. -/
structure GeneExpressionData where
  gene_names : List String
  gene_expression_values : List (String × List Sample)
deriving DecidableEq

deriving instance DecidableEq for Except

/-- Reading `gene_expression_values[g]`: the stored series, or the
`defaultdict` default `[]` when the key is absent. -/
def series_for (s : GeneExpressionData) (g : String) : List Sample :=
  (s.gene_expression_values.lookup g).getD []

/-- Typed failure outcomes of the engine.

* `UnknownGene` models the custom `NoGeneName` exception raised by
  `_validate_input` (the source catches it and returns an error string;
  either way the call yields no result mapping);
* `InsufficientSamples` models `statistics.StatisticsError`, raised by
  `mean` on an empty list and by `stdev` on fewer than two data points;
* `TypeErrorAbsStr` models the `TypeError` raised by `abs` applied to a
  string (the sentinel differential value) in `top_n_differential`;
* `IndexErrorEmptyHeap` models the `IndexError` raised by `heap[0]` on an
  empty heap in `top_n_differential`. -/
inductive EngineError where
  | UnknownGene (gene : String)
  | InsufficientSamples
  | TypeErrorAbsStr
  | IndexErrorEmptyHeap
deriving DecidableEq

/-- Arithmetic mean of a list of rationals (total helper; the checked
version is `mean`). -/
def listMean (xs : List ℚ) : ℚ := xs.sum / xs.length

/-- `statistics.mean`: arithmetic mean, raising `StatisticsError` on an
empty list. -/
def mean (xs : List ℚ) : Except EngineError ℚ :=
  if xs = [] then .error .InsufficientSamples else .ok (listMean xs)

/-- `statistics.stdev`: sample standard deviation with `N − 1`
denominator, raising `StatisticsError` when there are fewer than two data
points.  Square roots leave `ℚ`, so the returned number is the sample
variance (the squared standard deviation); every claim about `stdev`
concerns only its error condition and the presence of the entry, never
the numeric value itself, and the variance determines the standard
deviation.  `stdevVal` is the returned value, `stdev` adds the error
condition. -/
def stdevVal (xs : List ℚ) : ℚ :=
  (xs.map (fun x => (x - listMean xs) ^ 2)).sum / ((xs.length : ℚ) - 1)

/-- See `stdevVal`: `statistics.stdev` with its fewer-than-two-points
`StatisticsError`. -/
def stdev (xs : List ℚ) : Except EngineError ℚ :=
  if xs.length < 2 then .error .InsufficientSamples else .ok (stdevVal xs)

/-- `statistics.median`: middle value of the sorted data, averaging the
two middle values when the count is even; raises `StatisticsError` on an
empty list. -/
def medianVal (xs : List ℚ) : ℚ :=
  let sorted := xs.insertionSort (· ≤ ·)
  let k := xs.length
  if k % 2 = 1 then sorted.getD (k / 2) 0
  else (sorted.getD (k / 2 - 1) 0 + sorted.getD (k / 2) 0) / 2

/-- See `medianVal`: `statistics.median` with its empty-data
`StatisticsError`. -/
def median (xs : List ℚ) : Except EngineError ℚ :=
  if xs = [] then .error .InsufficientSamples else .ok (medianVal xs)

/-- The three statistics computed per gene by `calculate_statistics`. -/
structure GeneStats where
  mean : ℚ
  stdev : ℚ
  median : ℚ
deriving DecidableEq

/-- The per-gene body of `calculate_statistics`: extract the expression
values of the series (discarding sample name and status) and compute
mean, stdev and median in that order, propagating the first
`StatisticsError`. -/
def geneStats (xs : List ℚ) : Except EngineError GeneStats := do
  let m ← mean xs
  let sd ← stdev xs
  let md ← median xs
  return ⟨m, sd, md⟩

/-- The computation loop of `calculate_statistics` over the (already
validated, deduplicated) genes, filling the result mapping in iteration
order; an uncaught `StatisticsError` aborts the whole call. -/
def statsList (s : GeneExpressionData) : List String → Except EngineError (List (String × GeneStats))
  | [] => .ok []
  | g :: gs => do
    let st ← geneStats ((series_for s g).map (·.value))
    let rest ← statsList s gs
    return (g, st) :: rest

/-- `StatisticalAnalysis.calculate_statistics`: deduplicate the requested
genes, validate every name against the catalog before any computation
(`_validate_input` raises `NoGeneName`, surfaced as the error string),
then compute mean, stdev and median per gene. -/
def calculate_statistics (s : GeneExpressionData) (genes : List String) :
    Except EngineError (List (String × GeneStats)) :=
  match genes.dedup.find? (fun g => !(s.gene_names.contains g)) with
  | some g => .error (.UnknownGene g)
  | none => statsList s genes.dedup

/-- A per-gene differential outcome: a numeric mean difference, or the
sentinel string `"Either normal or HCC group is empty"`. -/
inductive DiffResult where
  | val (q : ℚ)
  | insufficientGroup
deriving DecidableEq

/-- The per-gene body of `calculate_differential`: partition the series
by status into the normal and HCC value lists; if either is empty record
the sentinel, otherwise `mean(hcc) - mean(normal)`. -/
def differentialOf (s : GeneExpressionData) (g : String) : DiffResult :=
  let recs := series_for s g
  let normal := (recs.filter (fun r => r.status == "normal")).map (·.value)
  let hcc := (recs.filter (fun r => r.status == "HCC")).map (·.value)
  if normal ≠ [] ∧ hcc ≠ [] then .val (listMean hcc - listMean normal)
  else .insufficientGroup

/-- `StatisticalAnalysis.calculate_differential`: validate every
requested name first (whole-batch, before deduplication, matching the
source order), then map each distinct gene to its differential outcome. -/
def calculate_differential (s : GeneExpressionData) (genes : List String) :
    Except EngineError (List (String × DiffResult)) :=
  match genes.find? (fun g => !(s.gene_names.contains g)) with
  | some g => .error (.UnknownGene g)
  | none => .ok (genes.dedup.map fun g => (g, differentialOf s g))

/-- `StatisticalAnalysis._gene_generator`: yields
`calculate_differential(gene)` for each catalog gene in order.  Each
yield is a one-entry mapping `{gene: outcome}` whose validation always
succeeds because the gene is drawn from the catalog itself, so the
generator is modelled as the list of `(gene, outcome)` pairs
(`top_n_differential` reads exactly that single item of each dict). -/
def gene_generator (s : GeneExpressionData) : List (String × DiffResult) :=
  s.gene_names.map fun g => (g, differentialOf s g)

/-- Python `abs` on a number (written out so that it evaluates by
kernel reduction; equal to `|q|` by `pyAbs_eq_abs`). -/
def pyAbs (q : ℚ) : ℚ := if q < 0 then -q else q

/-- `abs(diff_val)` as applied by `top_n_differential` to the single
value of each generated dict: a numeric differential yields its absolute
value, while the sentinel string makes `abs` raise a `TypeError`. -/
def absDiff : DiffResult → Except EngineError ℚ
  | .val q => .ok (pyAbs q)
  | .insufficientGroup => .error .TypeErrorAbsStr

/-- The lexicographic order `heapq` uses on the `(diff_val, gene_name)`
tuples pushed onto the heap: by value first, by gene name on ties. -/
def pairLe (a b : ℚ × String) : Prop :=
  a.1 < b.1 ∨ (a.1 = b.1 ∧ a.2 ≤ b.2)

instance : DecidableRel pairLe := fun a b =>
  inferInstanceAs (Decidable (a.1 < b.1 ∨ (a.1 = b.1 ∧ a.2 ≤ b.2)))

instance : IsTotal (ℚ × String) pairLe where
  total a b := by
    rcases lt_trichotomy a.1 b.1 with h | h | h
    · exact Or.inl (Or.inl h)
    · rcases le_total a.2 b.2 with h2 | h2
      · exact Or.inl (Or.inr ⟨h, h2⟩)
      · exact Or.inr (Or.inr ⟨h.symm, h2⟩)
    · exact Or.inr (Or.inl h)

instance : IsTrans (ℚ × String) pairLe where
  trans a b c hab hbc := by
    rcases hab with h1 | ⟨e1, s1⟩
    · rcases hbc with h2 | ⟨e2, _⟩
      · exact Or.inl (h1.trans h2)
      · exact Or.inl (e2 ▸ h1)
    · rcases hbc with h2 | ⟨e2, s2⟩
      · exact Or.inl (e1 ▸ h2)
      · exact Or.inr ⟨e1.trans e2, s1.trans s2⟩

/-- The single-gene step of `top_n_differential` on the current heap,
given the incoming `(diff_val, gene_name)` pair:

* `if len(heap) < n`: `heappush`, i.e. insert the pair (the min-heap is
  modelled by its sorted-ascending element list, the standard functional
  model of `heapq`: same multiset of entries, same root = minimum);
* `elif diff_val > heap[0][0]`: `heapreplace`, i.e. evict the root
  (the minimum) and insert the pair — but `heap[0]` on an empty heap
  (which happens exactly when `n = 0` and a pair arrives) raises an
  `IndexError`;
* else: discard the incoming pair. -/
def top_n_step (n : ℕ) (heap : List (ℚ × String)) (x : ℚ × String) :
    Except EngineError (List (ℚ × String)) :=
  if heap.length < n then .ok (heap.orderedInsert pairLe x)
  else
    match heap with
    | [] => .error .IndexErrorEmptyHeap
    | root :: rest =>
      if root.1 < x.1 then .ok (rest.orderedInsert pairLe x) else .ok (root :: rest)

/-- The `for gene_diff in gene_diffs` loop of `top_n_differential`:
take the absolute value of each generated differential (a `TypeError`
if it is the sentinel string) and feed it to the heap step. -/
def top_n_loop (n : ℕ) (heap : List (ℚ × String)) :
    List (String × DiffResult) → Except EngineError (List (ℚ × String))
  | [] => .ok heap
  | (g, d) :: rest => do
    let v ← absDiff d
    let heap' ← top_n_step n heap (v, g)
    top_n_loop n heap' rest

/-- The final `sorted(heap, reverse=True, key=lambda x: x[0])` relation:
descending by the first component (the absolute differential). -/
def descFst (a b : ℚ × String) : Prop := b.1 ≤ a.1

instance : DecidableRel descFst := fun a b =>
  inferInstanceAs (Decidable (b.1 ≤ a.1))

instance : IsTotal (ℚ × String) descFst where
  total a b := (le_total b.1 a.1).imp id id

instance : IsTrans (ℚ × String) descFst where
  trans _ _ _ h1 h2 := le_trans h2 h1

/-- `StatisticalAnalysis.top_n_differential`: stream the per-gene
differentials through the bounded heap and sort the surviving entries in
descending order of absolute differential. -/
def top_n_differential (s : GeneExpressionData) (n : ℕ) :
    Except EngineError (List (ℚ × String)) := do
  let heap ← top_n_loop n [] (gene_generator s)
  return heap.insertionSort descFst

/-- `round(x, 3)`: rounding to three decimal places.  Python rounds
halves to even on binary floats; exact decimal midpoints are not claimed
or exercised, so Mathlib `round` (halves up) models it. -/
def round3 (q : ℚ) : ℚ := (round (q * 1000) : ℤ) / 1000

/-- The per-gene value of `expression_above_threshold`: either the
string `"No expressions above the threshold."` when no sample passed, or
the `info` structure of retained `(sample, status, rounded value)`
records together with the `hcc_percentage`. -/
inductive ThresholdResult where
  | noMatches
  | filtered (info : List Sample) (hcc_percentage : ℚ)
deriving DecidableEq

/-- The per-gene sample scan of `expression_above_threshold`: one pass
over the series accumulating the retained records (value strictly above
the threshold, value rounded to 3 decimals), the count of `"HCC"`
matches, and the total count; afterwards either the info structure with
`round(hcc_count/total*100, 3)` or the no-matches marker. -/
def geneAboveThreshold (threshold : ℚ) (samples : List Sample) : ThresholdResult :=
  let acc := samples.foldl
    (fun (acc : List Sample × ℕ × ℕ) smp =>
      if threshold < smp.value then
        (acc.1 ++ [⟨smp.sample, smp.status, round3 smp.value⟩],
         acc.2.1 + (if smp.status == "HCC" then 1 else 0),
         acc.2.2 + 1)
      else acc)
    ([], 0, 0)
  if acc.2.2 ≠ 0 then .filtered acc.1 (round3 ((acc.2.1 : ℚ) / (acc.2.2 : ℚ) * 100))
  else .noMatches

/-- `StatisticalAnalysis.expression_above_threshold` (result value):
deduplicate the requested names; if any were passed, validate them all
and scan exactly those genes (failing the whole call on an unknown
name); otherwise scan every entry of the `gene_expression_values`
mapping. -/
def expression_above_threshold (s : GeneExpressionData) (threshold : ℚ)
    (gene_names : List String) : Except EngineError (List (String × ThresholdResult)) :=
  if gene_names.dedup ≠ [] then
    match gene_names.dedup.find? (fun g => !(s.gene_names.contains g)) with
    | some g => .error (.UnknownGene g)
    | none =>
      .ok (gene_names.dedup.map fun g => (g, geneAboveThreshold threshold (series_for s g)))
  else
    .ok (s.gene_expression_values.map fun e => (e.1, geneAboveThreshold threshold e.2))

/-- `defaultdict.__getitem__` on `gene_expression_values`: reading a
missing key inserts it with the empty default list. -/
def dd_touch (m : List (String × List Sample)) (g : String) : List (String × List Sample) :=
  if (m.lookup g).isSome then m else m ++ [(g, [])]

/-- The validation loop of `expression_above_threshold` in its
named-genes path, as it affects the store: each iteration validates one
name and then rebuilds the `genes_to_iterate` dict comprehension over
all requested names, reading every one of them through the
`defaultdict`; an invalid name aborts the loop (the call returns the
error string), but the key insertions already performed persist. -/
def eat_mutate_loop (catalog : List String) (names : List String) :
    List (String × List Sample) → List String → List (String × List Sample)
  | m, [] => m
  | m, g :: gs =>
    if catalog.contains g then eat_mutate_loop catalog names (names.foldl dd_touch m) gs
    else m

/-- The `gene_expression_values` mapping after a call to
`expression_above_threshold`: unchanged on the catalog-wide path, and
rewritten by the validation loop on the named-genes path. -/
def eat_store_after (s : GeneExpressionData) (gene_names : List String) :
    GeneExpressionData :=
  let names := gene_names.dedup
  if names ≠ [] then
    { s with gene_expression_values :=
        eat_mutate_loop s.gene_names names s.gene_expression_values names }
  else s

lemma pyAbs_eq_abs (q : ℚ) : pyAbs q = |q| := by
  unfold pyAbs
  split
  · exact (abs_of_neg (by assumption)).symm
  · exact (abs_of_nonneg (le_of_not_lt (by assumption))).symm

/-! ### Concrete stores used as witnesses and counterexamples -/

/-- A one-gene store whose gene has one `"normal"` and one `"HCC"`
sample, so its differential is numeric. -/
def sBasic : GeneExpressionData :=
  { gene_names := ["G1"],
    gene_expression_values := [("G1", [⟨"S1", "normal", 1⟩, ⟨"S2", "HCC", 3⟩])] }

/-- A one-gene store whose gene has samples only in the `"HCC"` group,
so its differential is the insufficient-group sentinel. -/
def sSentinel : GeneExpressionData :=
  { gene_names := ["G1"],
    gene_expression_values := [("G1", [⟨"S1", "HCC", 1⟩, ⟨"S2", "HCC", 3⟩])] }

/-- A one-gene store whose gene has exactly one observation. -/
def sOneObs : GeneExpressionData :=
  { gene_names := ["G1"],
    gene_expression_values := [("G1", [⟨"S1", "normal", 2⟩])] }

/-- A second store with a single-observation gene (named apart from
`sOneObs`). -/
def sOneObsA : GeneExpressionData :=
  { gene_names := ["GA"],
    gene_expression_values := [("GA", [⟨"T1", "HCC", 5⟩])] }

/-! ### C1, C2: boundary behavior of top_n_differential -/

/-- C1: the claim states that `top_n(0)` returns an empty sequence
without error for every dataset.  The code instead raises `IndexError`:
with `n = 0` the heap stays empty, so the very first gene falls through
to the `elif diff_val > heap[0][0]` branch, which indexes the empty
heap.  Evaluated here on a one-gene dataset with a numeric
differential. -/
theorem C1_top_n_zero_raises_IndexError :
    top_n_differential sBasic 0 = .error .IndexErrorEmptyHeap := by decide

/-- C2: the claim states that a gene whose NORMAL or CASE group is empty
is excluded from heap consideration and `top_n` still returns normally.
The code instead raises `TypeError`: `calculate_differential` records
the sentinel string for such a gene, and `top_n_differential` applies
`abs` to that string before any heap test.  Evaluated here on a
one-gene dataset whose gene has only `"HCC"` samples, with `n = 1`. -/
theorem C2_top_n_sentinel_raises_TypeError :
    top_n_differential sSentinel 1 = .error .TypeErrorAbsStr := by decide

/-! ### C4: the engine mutates the store -/

/-- C4: the claim states that no engine operation mutates the store,
including calls that fail with `UnknownGene`.  In the named-genes path
of `expression_above_threshold`, each validation iteration rebuilds the
`genes_to_iterate` dict comprehension over all requested names through
the `defaultdict`, so validating the known name `"G1"` first makes the
comprehension read the unknown key `"GX"`, inserting `"GX" ↦ []` into
`gene_expression_values` before the validation of `"GX"` fails the
call.  The key set of the mapping grows from `["G1"]` to
`["G1", "GX"]`. -/
theorem C4_expression_above_threshold_mutates_store :
    (eat_store_after sBasic ["G1", "GX"]).gene_expression_values.map Prod.fst
        = ["G1", "GX"] ∧
      sBasic.gene_expression_values.map Prod.fst = ["G1"] ∧
      eat_store_after sBasic ["G1", "GX"] ≠ sBasic := by decide

/-! ### C3: InsufficientSamples on a single-observation gene -/

/-- C3 counterexample: as literally stated the claim quantifies over
every request containing the single-observation gene, but a request
that also contains a name absent from the catalog fails with
`UnknownGene` (validation runs before any statistics), not with
`InsufficientSamples`. -/
theorem C3_cex_unknown_name_preempts :
    calculate_statistics sOneObs ["G1", "GX"] = .error (.UnknownGene "GX") ∧
      (series_for sOneObs "G1").length = 1 := by decide

/-! ### C5 counterexample: a valid batch can still fail -/

/-- C5 counterexample: the claim states that whenever every requested
name is in the catalog the call returns a mapping with one entry per
distinct name.  With the catalog gene `"GA"` holding exactly one
observation, the request `["GA"]` has every name in the catalog yet the
call fails with `InsufficientSamples` (from `stdev`) and returns no
mapping at all. -/
theorem C5_cex_insufficient_samples_aborts :
    calculate_statistics sOneObsA ["GA"] = .error .InsufficientSamples ∧
      "GA" ∈ sOneObsA.gene_names := by decide

/-! ### Basic lemmas about the embedded statistics -/

lemma ok_bind {ε α β : Type _} (a : α) (f : α → Except ε β) :
    (Except.ok a >>= f) = f a := rfl

lemma error_bind {ε α β : Type _} (e : ε) (f : α → Except ε β) :
    (Except.error e >>= f : Except ε β) = .error e := rfl

lemma geneStats_of_length_one {xs : List ℚ} (h : xs.length = 1) :
    geneStats xs = .error .InsufficientSamples := by
  obtain ⟨a, rfl⟩ := List.length_eq_one.1 h
  rfl

lemma geneStats_of_two_le {xs : List ℚ} (h : 2 ≤ xs.length) :
    geneStats xs = .ok ⟨listMean xs, stdevVal xs, medianVal xs⟩ := by
  have hne : xs ≠ [] := by
    intro hnil
    rw [hnil] at h
    exact absurd h (by decide)
  unfold geneStats mean stdev median
  rw [if_neg hne, ok_bind, if_neg (Nat.not_lt.2 h), ok_bind, if_neg hne, ok_bind]
  rfl

lemma geneStats_ok_or (xs : List ℚ) :
    (∃ st, geneStats xs = .ok st) ∨ geneStats xs = .error .InsufficientSamples := by
  by_cases h1 : xs = []
  · right
    unfold geneStats mean
    rw [if_pos h1, error_bind]
  by_cases h2 : xs.length < 2
  · right
    unfold geneStats mean stdev
    rw [if_neg h1, ok_bind, if_pos h2, error_bind]
  · left
    exact ⟨_, geneStats_of_two_le (Nat.not_lt.1 h2)⟩

lemma statsList_error (s : GeneExpressionData) (l : List String)
    (h : ∃ g ∈ l, geneStats ((series_for s g).map (·.value)) = .error .InsufficientSamples) :
    statsList s l = .error .InsufficientSamples := by
  induction l with
  | nil => rcases h with ⟨g, hg, _⟩; cases hg
  | cons a l ih =>
    rcases h with ⟨g, hg, hgs⟩
    rcases List.mem_cons.1 hg with rfl | hgl
    · unfold statsList
      rw [hgs, error_bind]
    · rcases geneStats_ok_or ((series_for s a).map (·.value)) with ⟨st, hok⟩ | herr
      · unfold statsList
        rw [hok, ok_bind, ih ⟨g, hgl, hgs⟩, error_bind]
      · unfold statsList
        rw [herr, error_bind]

lemma statsList_ok (s : GeneExpressionData) (l : List String)
    (h : ∀ g ∈ l, 2 ≤ (series_for s g).length) :
    ∃ m, statsList s l = .ok m ∧ m.map Prod.fst = l := by
  induction l with
  | nil => exact ⟨[], rfl, rfl⟩
  | cons a l ih =>
    obtain ⟨m, hm, hkeys⟩ := ih fun g hg => h g (List.mem_cons_of_mem a hg)
    have ha : 2 ≤ ((series_for s a).map (·.value)).length := by
      rw [List.length_map]
      exact h a (List.mem_cons_self a l)
    refine ⟨(a, ⟨listMean ((series_for s a).map (·.value)),
        stdevVal ((series_for s a).map (·.value)),
        medianVal ((series_for s a).map (·.value))⟩) :: m, ?_, by simp [hkeys]⟩
    unfold statsList
    rw [geneStats_of_two_le ha, ok_bind, hm, ok_bind]
    rfl

/-- The validation pass succeeds exactly on requests whose names are all
in the catalog. -/
lemma find?_invalid_eq_none {s : GeneExpressionData} {l : List String}
    (h : ∀ g ∈ l, g ∈ s.gene_names) :
    l.find? (fun g => !(s.gene_names.contains g)) = none := by
  rw [List.find?_eq_none]
  intro g hg
  simp [h g hg]

lemma find?_invalid_of_exists {s : GeneExpressionData} {l : List String}
    (h : ∃ g ∈ l, g ∉ s.gene_names) :
    ∃ g, l.find? (fun g => !(s.gene_names.contains g)) = some g ∧
      g ∈ l ∧ g ∉ s.gene_names := by
  obtain ⟨g, hg, hng⟩ := h
  have : (l.find? (fun g => !(s.gene_names.contains g))).isSome := by
    rw [List.find?_isSome]
    exact ⟨g, hg, by simp [hng]⟩
  obtain ⟨a, ha⟩ := Option.isSome_iff_exists.1 this
  refine ⟨a, ha, List.mem_of_find?_eq_some ha, ?_⟩
  have := List.find?_some ha
  simpa using this

/-! ### C3: InsufficientSamples on a single-observation gene -/

/-- C3 (amended with the counterexample-forced restriction to requests
whose names are all in the catalog): if a request contains a catalog
gene with exactly one observation, `calculate_statistics` fails with
`InsufficientSamples` — the typed outcome of `statistics.stdev` on one
data point — rather than returning a zero stdev or any other error. -/
theorem C3_stats_one_observation_insufficient (s : GeneExpressionData)
    (genes : List String) (hvalid : ∀ g ∈ genes, g ∈ s.gene_names)
    (hone : ∃ g ∈ genes, (series_for s g).length = 1) :
    calculate_statistics s genes = .error .InsufficientSamples := by
  unfold calculate_statistics
  rw [find?_invalid_eq_none fun g hg => hvalid g (List.mem_dedup.1 hg)]
  obtain ⟨g, hg, hlen⟩ := hone
  exact statsList_error s _ ⟨g, List.mem_dedup.2 hg,
    geneStats_of_length_one (by rw [List.length_map]; exact hlen)⟩

/-- C3 witness: the single-observation store `sOneObs` with the request
`["G1"]`. -/
theorem C3_stats_one_observation_witness :
    calculate_statistics sOneObs ["G1"] = .error .InsufficientSamples :=
  C3_stats_one_observation_insufficient sOneObs ["G1"] (by decide)
    ⟨"G1", by decide, by decide⟩

/-! ### C5: atomic batch behavior of calculate_statistics -/

/-- C5 (amended with the counterexample-forced extra premise that every
requested gene has at least two observations — otherwise the call fails
with `InsufficientSamples`, see `C5_cex_insufficient_samples_aborts`):
when every requested name is in the catalog (and statistics are defined
for each), `calculate_statistics` returns a mapping with exactly one
entry per distinct requested name, duplicates collapsed; when any
requested name is absent, the whole call fails with `UnknownGene` and no
statistics are returned for any gene of the call. -/
theorem C5_stats_batch_atomic (s : GeneExpressionData) (genes : List String) :
    ((∀ g ∈ genes, g ∈ s.gene_names) → (∀ g ∈ genes, 2 ≤ (series_for s g).length) →
      ∃ m, calculate_statistics s genes = .ok m ∧ m.map Prod.fst = genes.dedup) ∧
    ((∃ g ∈ genes, g ∉ s.gene_names) →
      ∃ g ∈ genes, g ∉ s.gene_names ∧
        calculate_statistics s genes = .error (.UnknownGene g)) := by
  constructor
  · intro hvalid hlen
    obtain ⟨m, hm, hkeys⟩ := statsList_ok s genes.dedup
      fun g hg => hlen g (List.mem_dedup.1 hg)
    refine ⟨m, ?_, hkeys⟩
    unfold calculate_statistics
    rw [find?_invalid_eq_none fun g hg => hvalid g (List.mem_dedup.1 hg)]
    exact hm
  · intro hex
    obtain ⟨g, hfind, hmem, hng⟩ := find?_invalid_of_exists
      (l := genes.dedup) (by obtain ⟨g, hg, hng⟩ := hex; exact ⟨g, List.mem_dedup.2 hg, hng⟩)
    refine ⟨g, List.mem_dedup.1 hmem, hng, ?_⟩
    unfold calculate_statistics
    rw [hfind]

/-- C5 witness: on `sBasic`, the duplicated valid request `["G1", "G1"]`
collapses to one entry, and the request `["G1", "GX"]` with an unknown
name fails with `UnknownGene`. -/
theorem C5_stats_batch_atomic_witness :
    (∃ m, calculate_statistics sBasic ["G1", "G1"] = .ok m ∧
      m.map Prod.fst = ["G1"]) ∧
    (∃ g ∈ ["G1", "GX"], g ∉ sBasic.gene_names ∧
      calculate_statistics sBasic ["G1", "GX"] = .error (.UnknownGene g)) := by
  constructor
  · have h := (C5_stats_batch_atomic sBasic ["G1", "G1"]).1 (by decide) (by decide)
    simpa using h
  · exact (C5_stats_batch_atomic sBasic ["G1", "GX"]).2 ⟨"GX", by decide, by decide⟩

/-! ### C10: tie policy at the eviction boundary -/

/-- C10: when the heap already holds `n` entries and the incoming
absolute differential equals the current heap minimum (the root), the
incoming entry is discarded and the incumbent minimum is retained,
because eviction requires the strict inequality
`diff_val > heap[0][0]`. -/
theorem C10_tie_discards_incoming (n : ℕ) (heap : List (ℚ × String))
    (x root : ℚ × String) (rest : List (ℚ × String)) (hheap : heap = root :: rest)
    (hfull : heap.length = n) (hmin : ∀ e ∈ heap, root.1 ≤ e.1)
    (htie : x.1 = root.1) :
    top_n_step n heap x = .ok heap := by
  subst hheap
  unfold top_n_step
  rw [if_neg (by omega)]
  show (if root.1 < x.1 then _ else Except.ok (root :: rest)) = _
  rw [if_neg (by rw [htie]; exact lt_irrefl _)]

/-- C10 witness: a full two-entry heap with minimum 2 discards an
incoming entry of absolute differential exactly 2. -/
theorem C10_tie_discards_incoming_witness :
    top_n_step 2 [((2 : ℚ), "GA"), ((5 : ℚ), "GB")] ((2 : ℚ), "GC")
      = .ok [((2 : ℚ), "GA"), ((5 : ℚ), "GB")] :=
  C10_tie_discards_incoming 2 _ ((2 : ℚ), "GC") ((2 : ℚ), "GA") [((5 : ℚ), "GB")]
    rfl rfl (by decide) rfl

/-- A two-gene store: `"G1"` has both groups, `"G2"` has only `"HCC"`
samples (sentinel differential). -/
def sMixed : GeneExpressionData :=
  { gene_names := ["G1", "G2"],
    gene_expression_values :=
      [("G1", [⟨"S1", "normal", 1⟩, ⟨"S2", "HCC", 3⟩]),
       ("G2", [⟨"S1", "HCC", 4⟩, ⟨"S2", "HCC", 6⟩])] }

/-- Looking up a key in a mapping built by pairing each list element
with a computed value. -/
lemma lookup_keyed_map {β : Type _} {f : String → β} {l : List String}
    (hnd : l.Nodup) {g : String} (hg : g ∈ l) :
    (l.map fun g => (g, f g)).lookup g = some (f g) := by
  induction l with
  | nil => cases hg
  | cons a l ih =>
    rcases List.mem_cons.1 hg with rfl | hgl
    · simp [List.lookup]
    · have hne : g ≠ a := fun h => (List.nodup_cons.1 hnd).1 (h ▸ hgl)
      have hbeq : (g == a) = false := beq_false_of_ne hne
      simp only [List.map_cons, List.lookup, hbeq]
      exact ih (List.nodup_cons.1 hnd).2 hgl

/-- The keys of a mapping built by pairing each list element with a
computed value are the list itself. -/
lemma map_fst_keyed_map {β : Type _} (f : String → β) (l : List String) :
    (l.map fun g => (g, f g)).map Prod.fst = l := by
  induction l with
  | nil => rfl
  | cons a l ih =>
    simp only [List.map_cons]
    rw [ih]

/-! ### C6: per-gene differential outcomes -/

/-- C6: for a request whose names are all in the catalog,
`calculate_differential` returns (never raises) a mapping with one entry
per distinct requested gene; each gene maps to
`mean(CASE values) − mean(NORMAL values)` when both status groups are
non-empty and to the insufficient-group sentinel otherwise, and a
sentinel gene never prevents the other genes of the batch from being
computed (the mapping is total on the distinct requested names). -/
theorem C6_differential_per_gene (s : GeneExpressionData) (genes : List String)
    (hvalid : ∀ g ∈ genes, g ∈ s.gene_names) :
    ∃ m, calculate_differential s genes = .ok m ∧
      m.map Prod.fst = genes.dedup ∧
      ∀ g ∈ genes,
        m.lookup g = some
          (if ((series_for s g).filter (fun r => r.status == "normal")).map (·.value) ≠ [] ∧
              ((series_for s g).filter (fun r => r.status == "HCC")).map (·.value) ≠ [] then
            .val (listMean (((series_for s g).filter (fun r => r.status == "HCC")).map (·.value)) -
              listMean (((series_for s g).filter (fun r => r.status == "normal")).map (·.value)))
          else .insufficientGroup) := by
  refine ⟨genes.dedup.map (fun g => (g, differentialOf s g)), ?_,
    map_fst_keyed_map _ _, ?_⟩
  · unfold calculate_differential
    rw [find?_invalid_eq_none hvalid]
  · intro g hg
    rw [lookup_keyed_map (List.nodup_dedup genes) (List.mem_dedup.2 hg)]
    rfl

/-- C6 witness: on the mixed store, `"G1"` gets the numeric differential
`2` and the one-group gene `"G2"` gets the sentinel while `"G1"` is
still computed. -/
theorem C6_differential_per_gene_witness :
    ∃ m, calculate_differential sMixed ["G1", "G2"] = .ok m ∧
      m.map Prod.fst = ["G1", "G2"] ∧
      m.lookup "G1" = some (.val 2) ∧
      m.lookup "G2" = some .insufficientGroup := by
  obtain ⟨m, h1, h2, h3⟩ := C6_differential_per_gene sMixed ["G1", "G2"] (by decide)
  refine ⟨m, h1, h2.trans (by decide),
    (h3 "G1" (by decide)).trans ?_,
    (h3 "G2" (by decide)).trans (by decide)⟩
  simp +decide [series_for, sMixed, listMean]
  norm_num

/-! ### C9: validation semantics of expression_above_threshold -/

/-- C9: under the data-model invariant that the catalog is consistent
with the keys of the series mapping, `expression_above_threshold` with a
non-empty `gene_names` deduplicates the names and either (all names in
the catalog) returns one entry per distinct name, or (some name absent)
fails the whole call with `UnknownGene` and returns no per-gene results;
with an empty `gene_names` it scans every catalog gene and never fails
with `UnknownGene`. -/
theorem C9_threshold_validation (s : GeneExpressionData) (t : ℚ)
    (names : List String)
    (hwf : s.gene_expression_values.map Prod.fst = s.gene_names) :
    (names ≠ [] → (∀ g ∈ names, g ∈ s.gene_names) →
      ∃ m, expression_above_threshold s t names = .ok m ∧
        m.map Prod.fst = names.dedup) ∧
    (names ≠ [] → (∃ g ∈ names, g ∉ s.gene_names) →
      ∃ g ∈ names, g ∉ s.gene_names ∧
        expression_above_threshold s t names = .error (.UnknownGene g)) ∧
    (names = [] →
      ∃ m, expression_above_threshold s t names = .ok m ∧
        m.map Prod.fst = s.gene_names) := by
  refine ⟨?_, ?_, ?_⟩
  · intro hne hvalid
    refine ⟨names.dedup.map fun g => (g, geneAboveThreshold t (series_for s g)), ?_,
      map_fst_keyed_map _ _⟩
    unfold expression_above_threshold
    rw [if_pos (fun h => hne ((List.dedup_eq_nil names).1 h)),
      find?_invalid_eq_none fun g hg => hvalid g (List.mem_dedup.1 hg)]
  · intro _ hex
    obtain ⟨g, hfind, hmem, hng⟩ := find?_invalid_of_exists (l := names.dedup)
      (by obtain ⟨g, hg, hng⟩ := hex; exact ⟨g, List.mem_dedup.2 hg, hng⟩)
    refine ⟨g, List.mem_dedup.1 hmem, hng, ?_⟩
    unfold expression_above_threshold
    rw [if_pos (fun h => by rw [h] at hfind; cases hfind), hfind]
  · intro hnil
    refine ⟨s.gene_expression_values.map fun e => (e.1, geneAboveThreshold t e.2), ?_, ?_⟩
    · unfold expression_above_threshold
      rw [if_neg (by simp [hnil])]
    · rw [List.map_map]
      exact hwf

/-- C9 witness: on the mixed store with threshold 2, a duplicated valid
request collapses to one entry, an unknown name fails the whole call,
and the catalog-wide call returns one entry per catalog gene. -/
theorem C9_threshold_validation_witness :
    (∃ m, expression_above_threshold sMixed 2 ["G1", "G1"] = .ok m ∧
      m.map Prod.fst = ["G1"]) ∧
    (∃ g ∈ ["G1", "GX"], g ∉ sMixed.gene_names ∧
      expression_above_threshold sMixed 2 ["G1", "GX"] = .error (.UnknownGene g)) ∧
    (∃ m, expression_above_threshold sMixed 2 [] = .ok m ∧
      m.map Prod.fst = ["G1", "G2"]) := by
  refine ⟨?_, ?_, ?_⟩
  · obtain ⟨m, h1, h2⟩ := (C9_threshold_validation sMixed 2 ["G1", "G1"] (by decide)).1
      (by decide) (by decide)
    exact ⟨m, h1, h2.trans (by decide)⟩
  · exact (C9_threshold_validation sMixed 2 ["G1", "GX"] (by decide)).2.1
      (by decide) ⟨"GX", by decide, by decide⟩
  · obtain ⟨m, h1, h2⟩ := (C9_threshold_validation sMixed 2 [] (by decide)).2.2 rfl
    exact ⟨m, h1, h2.trans (by decide)⟩

/-! ### C8: per-gene content of the threshold filter -/

/-- Unrolled accumulator of the threshold scan: the fold of
`geneAboveThreshold` appends the rounded retained records in order and
counts the `"HCC"` matches and the total matches. -/
lemma threshold_foldl (t : ℚ) (samples : List Sample) (acc : List Sample) (hc tot : ℕ) :
    samples.foldl
      (fun (acc : List Sample × ℕ × ℕ) smp =>
        if t < smp.value then
          (acc.1 ++ [⟨smp.sample, smp.status, round3 smp.value⟩],
           acc.2.1 + (if smp.status == "HCC" then 1 else 0),
           acc.2.2 + 1)
        else acc)
      (acc, hc, tot) =
    (acc ++ (samples.filter fun smp => t < smp.value).map
        (fun smp => ⟨smp.sample, smp.status, round3 smp.value⟩),
     hc + (samples.filter fun smp => t < smp.value).countP
        (fun smp => smp.status == "HCC"),
     tot + (samples.filter fun smp => t < smp.value).length) := by
  induction samples generalizing acc hc tot with
  | nil => simp
  | cons smp rest ih =>
    by_cases h : t < smp.value
    · rw [List.foldl_cons, if_pos h, ih]
      simp only [List.filter_cons, decide_eq_true h, if_true, List.map_cons,
        List.countP_cons, List.length_cons, Prod.mk.injEq]
      refine ⟨by simp, ?_, by omega⟩
      by_cases hs : smp.status == "HCC" <;> (simp [hs]; try omega)
    · rw [List.foldl_cons, if_neg h, ih, List.filter_cons,
        if_neg (by simpa using h)]

/-- The per-gene threshold scan, characterised by `List.filter`: the
no-matches marker exactly when no sample value strictly exceeds the
threshold, and otherwise the retained samples in original order with
rounded values and the rounded HCC percentage. -/
lemma geneAboveThreshold_eq (t : ℚ) (samples : List Sample) :
    geneAboveThreshold t samples =
      if (samples.filter fun smp => t < smp.value) = [] then .noMatches
      else .filtered
        ((samples.filter fun smp => t < smp.value).map
          fun smp => ⟨smp.sample, smp.status, round3 smp.value⟩)
        (round3 ((((samples.filter fun smp => t < smp.value).countP
            (fun smp => smp.status == "HCC") : ℚ)) /
          (((samples.filter fun smp => t < smp.value).length : ℚ)) * 100)) := by
  unfold geneAboveThreshold
  rw [threshold_foldl]
  by_cases h : (samples.filter fun smp => t < smp.value) = []
  · simp [h]
  · have hlen : (samples.filter fun smp => t < smp.value).length ≠ 0 := by
      simpa [List.length_eq_zero] using h
    simp [h, hlen]

/-- Looking up a key of an association list with distinct keys finds the
unique entry. -/
lemma lookup_of_nodup_keys {β : Type _} {l : List (String × β)}
    (hnd : (l.map Prod.fst).Nodup) {g : String} {v : β} (h : (g, v) ∈ l) :
    l.lookup g = some v := by
  induction l with
  | nil => cases h
  | cons e l ih =>
    rcases List.mem_cons.1 h with rfl | hl
    · simp [List.lookup]
    · have hne : g ≠ e.1 := by
        rintro rfl
        exact (List.nodup_cons.1 hnd).1
          (List.mem_map.2 ⟨(e.1, v), hl, rfl⟩)
      have hbeq : (g == e.1) = false := beq_false_of_ne hne
      simp only [List.lookup, hbeq]
      exact ih (List.nodup_cons.1 hnd).2 hl

/-- C8: for every gene in scope of a successful
`expression_above_threshold` call (on a store whose mapping has distinct
keys, as a Python dict does), the per-gene result is the no-matches
marker — a constructor observably distinct from any populated
structure — exactly when no sample of that gene has value strictly
greater than the threshold; otherwise it is the list of exactly the
samples with value strictly above the threshold, in original sample
order, with values rounded to 3 decimal places, together with
`case_percentage = 100 × (matches with status CASE) / (total matches)`
rounded to 3 decimal places. -/
theorem C8_threshold_per_gene (s : GeneExpressionData) (t : ℚ)
    (names : List String) (m : List (String × ThresholdResult))
    (hnd : (s.gene_expression_values.map Prod.fst).Nodup)
    (hok : expression_above_threshold s t names = .ok m) :
    ∀ g r, (g, r) ∈ m →
      (r = .noMatches ↔ ((series_for s g).filter fun smp => t < smp.value) = []) ∧
      (((series_for s g).filter fun smp => t < smp.value) ≠ [] →
        r = .filtered
          (((series_for s g).filter fun smp => t < smp.value).map
            fun smp => ⟨smp.sample, smp.status, round3 smp.value⟩)
          (round3 (100 * ((((series_for s g).filter fun smp => t < smp.value).countP
              (fun smp => smp.status == "HCC") : ℚ)) /
            ((((series_for s g).filter fun smp => t < smp.value).length : ℚ))))) := by
  intro g r hgr
  have hr : r = geneAboveThreshold t (series_for s g) := by
    unfold expression_above_threshold at hok
    by_cases hne : names.dedup = []
    · rw [if_neg (fun hh => hh hne)] at hok
      obtain ⟨e, he, heq⟩ := List.mem_map.1 (Except.ok.inj hok ▸ hgr)
      have h1 : e.1 = g := congrArg Prod.fst heq
      have h2 : r = geneAboveThreshold t e.2 := (congrArg Prod.snd heq).symm
      have : series_for s g = e.2 := by
        unfold series_for
        rw [lookup_of_nodup_keys hnd (h1 ▸ (show (e.1, e.2) ∈ _ from he))]
        rfl
      rw [h2, this]
    · rw [if_pos hne] at hok
      cases hfind : names.dedup.find? (fun g => !(s.gene_names.contains g)) with
      | some a => rw [hfind] at hok; cases hok
      | none =>
        rw [hfind] at hok
        obtain ⟨g', _, heq⟩ := List.mem_map.1 (Except.ok.inj hok ▸ hgr)
        have h1 : g' = g := congrArg Prod.fst heq
        have h2 : r = geneAboveThreshold t (series_for s g') :=
          (congrArg Prod.snd heq).symm
        rw [h2, h1]
  rw [hr, geneAboveThreshold_eq]
  by_cases h : ((series_for s g).filter fun smp => t < smp.value) = []
  · rw [if_pos h]
    exact ⟨by simp [h], fun hc => absurd h hc⟩
  · rw [if_neg h]
    refine ⟨by simp [h], fun _ => ?_⟩
    have harg : ((((series_for s g).filter fun smp => t < smp.value).countP
          (fun smp => smp.status == "HCC") : ℚ)) /
          ((((series_for s g).filter fun smp => t < smp.value).length : ℚ)) * 100
        = 100 * ((((series_for s g).filter fun smp => t < smp.value).countP
          (fun smp => smp.status == "HCC") : ℚ)) /
          ((((series_for s g).filter fun smp => t < smp.value).length : ℚ)) := by
      ring
    rw [harg]

/-- C8 witness: on the mixed store with threshold 2, the gene `"G1"`
(samples `1` and `3`) retains exactly the sample `("S2", "HCC", 3)` and
reports an HCC percentage of `100`. -/
theorem C8_threshold_per_gene_witness :
    (ThresholdResult.filtered [⟨"S2", "HCC", (3 : ℚ)⟩] 100 = .noMatches ↔
      ((series_for sMixed "G1").filter fun smp => (2 : ℚ) < smp.value) = []) ∧
    (((series_for sMixed "G1").filter fun smp => (2 : ℚ) < smp.value) ≠ [] →
      ThresholdResult.filtered [⟨"S2", "HCC", (3 : ℚ)⟩] 100 = .filtered
        (((series_for sMixed "G1").filter fun smp => (2 : ℚ) < smp.value).map
          fun smp => ⟨smp.sample, smp.status, round3 smp.value⟩)
        (round3 (100 * ((((series_for sMixed "G1").filter
              fun smp => (2 : ℚ) < smp.value).countP
            (fun smp => smp.status == "HCC") : ℚ)) /
          ((((series_for sMixed "G1").filter
              fun smp => (2 : ℚ) < smp.value).length : ℚ))))) := by
  have hok : expression_above_threshold sMixed 2 ["G1"]
      = .ok [("G1", .filtered [⟨"S2", "HCC", 3⟩] 100)] := by
    simp +decide [expression_above_threshold, geneAboveThreshold, series_for,
      sMixed, round3]
    norm_num
  exact C8_threshold_per_gene sMixed 2 ["G1"] _ (by decide) hok "G1" _
    (List.mem_singleton.2 rfl)

/-! ### C7: the bounded heap selects the n largest absolute differentials -/

lemma pairLe_fst {a b : ℚ × String} (h : pairLe a b) : a.1 ≤ b.1 := by
  rcases h with h | ⟨h, _⟩
  · exact le_of_lt h
  · exact le_of_eq h

/-- In a heap (sorted ascending), the root bounds every entry from
below on the first coordinate: it is the heap minimum. -/
lemma sorted_head_min {root : ℚ × String} {rest : List (ℚ × String)}
    (h : List.Sorted pairLe (root :: rest)) : ∀ e ∈ root :: rest, root.1 ≤ e.1 := by
  intro e he
  rcases List.mem_cons.1 he with rfl | he
  · exact le_refl _
  · exact pairLe_fst (List.rel_of_sorted_cons h e he)

/-- Loop invariant of `top_n_differential` after the genes of `p` have
been streamed into heap `h`: the heap is sorted, holds
`min n (number processed)` entries, every entry is the
`(|differential|, gene)` pair of a distinct processed gene, and every
processed gene left out of the heap has absolute differential at most
every heap entry. -/
def TopInv (s : GeneExpressionData) (n : ℕ) (p : List String)
    (h : List (ℚ × String)) : Prop :=
  List.Sorted pairLe h ∧
  h.length = min n p.length ∧
  (∀ e ∈ h, e.2 ∈ p ∧ ∃ q, differentialOf s e.2 = .val q ∧ e.1 = |q|) ∧
  (h.map Prod.snd).Nodup ∧
  (∀ g ∈ p, g ∉ h.map Prod.snd → ∀ q, differentialOf s g = .val q →
    ∀ e ∈ h, |q| ≤ e.1)

/-- One heap step preserves the invariant. -/
lemma TopInv.step {s : GeneExpressionData} {n : ℕ} {p : List String}
    {h : List (ℚ × String)} {g : String} {q : ℚ}
    (hn : 1 ≤ n) (hq : differentialOf s g = .val q)
    (hgp : g ∉ p) (hinv : TopInv s n p h) :
    ∃ h', top_n_step n h ((|q|), g) = .ok h' ∧ TopInv s n (p ++ [g]) h' := by
  obtain ⟨hA, hB, hC, hD, hE⟩ := hinv
  have hnames_sub : ∀ x ∈ h.map Prod.snd, x ∈ p := by
    intro x hx
    obtain ⟨e, he, rfl⟩ := List.mem_map.1 hx
    exact (hC e he).1
  by_cases hlt : h.length < n
  · -- heappush: the heap is below capacity
    refine ⟨h.orderedInsert pairLe ((|q|), g), by unfold top_n_step; rw [if_pos hlt], ?_⟩
    have hperm : List.Perm (h.orderedInsert pairLe ((|q|), g)) (((|q|), g) :: h) :=
      List.perm_orderedInsert pairLe _ h
    have hnp : List.Perm ((h.orderedInsert pairLe ((|q|), g)).map Prod.snd)
        (g :: h.map Prod.snd) := by
      simpa using hperm.map Prod.snd
    have hplen : p.length < n := by
      rw [hB] at hlt
      omega
    have hglen : h.length = p.length := by
      rw [hB]
      omega
    refine ⟨List.Sorted.orderedInsert _ _ hA, ?_, ?_, ?_, ?_⟩
    · rw [List.orderedInsert_length, List.length_append, hglen]
      simp
      omega
    · intro e he
      rcases List.mem_cons.1 (hperm.mem_iff.1 he) with rfl | he'
      · exact ⟨List.mem_append.2 (Or.inr (List.mem_singleton.2 rfl)), q, hq, rfl⟩
      · obtain ⟨hp, hr⟩ := hC e he'
        exact ⟨List.mem_append.2 (Or.inl hp), hr⟩
    · rw [hnp.nodup_iff]
      exact List.nodup_cons.2 ⟨fun hx => hgp (hnames_sub g hx), hD⟩
    · intro g' hg' hex q' hq' e he
      exfalso
      apply hex
      rw [hnp.mem_iff]
      rcases List.mem_append.1 hg' with hgp' | hgg
      · have hsp : List.Subperm (h.map Prod.snd) p :=
          List.subperm_of_subset hD hnames_sub
        have hlenp : p.length ≤ (h.map Prod.snd).length := by
          rw [List.length_map, hglen]
        have hpermnames : List.Perm (h.map Prod.snd) p :=
          hsp.perm_of_length_le hlenp
        exact List.mem_cons.2 (Or.inr (hpermnames.mem_iff.2 hgp'))
      · exact List.mem_cons.2 (Or.inl (List.mem_singleton.1 hgg))
  · -- the heap is full
    have hle : h.length ≤ n := hB ▸ Nat.min_le_left _ _
    have hfull : h.length = n := le_antisymm hle (Nat.not_lt.1 hlt)
    have hpge : n ≤ p.length := by
      by_contra hcon
      push_neg at hcon
      rw [Nat.min_eq_right (le_of_lt hcon)] at hB
      omega
    obtain ⟨root, rest, rfl⟩ : ∃ root rest, h = root :: rest := by
      cases h with
      | nil => rw [List.length_nil] at hfull; omega
      | cons a t => exact ⟨a, t, rfl⟩
    have hmin := sorted_head_min hA
    by_cases hcmp : root.1 < |q|
    · -- heapreplace: evict the minimum, insert the incoming pair
      refine ⟨rest.orderedInsert pairLe ((|q|), g), ?_, ?_⟩
      · unfold top_n_step
        rw [if_neg hlt]
        show (if root.1 < ((|q|), g).1 then _ else _) = _
        rw [if_pos hcmp]
      have hperm : List.Perm (rest.orderedInsert pairLe ((|q|), g)) (((|q|), g) :: rest) :=
        List.perm_orderedInsert pairLe _ rest
      have hnp : List.Perm ((rest.orderedInsert pairLe ((|q|), g)).map Prod.snd)
          (g :: rest.map Prod.snd) := by
        simpa using hperm.map Prod.snd
      have hrestsub : ∀ x ∈ rest.map Prod.snd, x ∈ p := by
        intro x hx
        exact hnames_sub x (by
          rw [List.map_cons]
          exact List.mem_cons_of_mem _ hx)
      refine ⟨List.Sorted.orderedInsert _ _ hA.of_cons, ?_, ?_, ?_, ?_⟩
      · rw [List.orderedInsert_length, List.length_append]
        have : rest.length + 1 = n := by
          rw [List.length_cons] at hfull
          omega
        simp
        omega
      · intro e he
        rcases List.mem_cons.1 (hperm.mem_iff.1 he) with rfl | he'
        · exact ⟨List.mem_append.2 (Or.inr (List.mem_singleton.2 rfl)), q, hq, rfl⟩
        · obtain ⟨hp, hr⟩ := hC e (List.mem_cons_of_mem _ he')
          exact ⟨List.mem_append.2 (Or.inl hp), hr⟩
      · rw [hnp.nodup_iff]
        refine List.nodup_cons.2 ⟨fun hx => hgp (hrestsub g hx), ?_⟩
        have : (root.2 :: rest.map Prod.snd).Nodup := by
          simpa using hD
        exact (List.nodup_cons.1 this).2
      · intro g' hg' hex q' hq' e he
        have hgin : g ∈ (rest.orderedInsert pairLe ((|q|), g)).map Prod.snd :=
          hnp.mem_iff.2 (List.mem_cons_self _ _)
        rcases List.mem_append.1 hg' with hgp' | hgg
        · by_cases hgr : g' = root.2
          · obtain ⟨-, qr, hqr, hroot1⟩ := hC root (List.mem_cons_self _ _)
            have hq'qr : q' = qr := by
              rw [hgr] at hq'
              rw [hq'] at hqr
              exact DiffResult.val.inj hqr
            have habs : |q'| = root.1 := by rw [hq'qr, hroot1]
            rcases List.mem_cons.1 (hperm.mem_iff.1 he) with rfl | he'
            · rw [habs]
              exact le_of_lt hcmp
            · rw [habs]
              exact hmin e (List.mem_cons_of_mem _ he')
          · have hg'notin : g' ∉ (root :: rest).map Prod.snd := by
              rw [List.map_cons]
              intro hcontra
              rcases List.mem_cons.1 hcontra with h1 | h2
              · exact hgr h1
              · exact hex (hnp.mem_iff.2 (List.mem_cons.2 (Or.inr h2)))
            have hEap := hE g' hgp' hg'notin q' hq'
            rcases List.mem_cons.1 (hperm.mem_iff.1 he) with rfl | he'
            · exact le_of_lt (lt_of_le_of_lt
                (hEap root (List.mem_cons_self _ _)) hcmp)
            · exact hEap e (List.mem_cons_of_mem _ he')
        · exfalso
          exact hex ((List.mem_singleton.1 hgg) ▸ hgin)
    · -- discard: the incoming value does not strictly exceed the minimum
      refine ⟨root :: rest, ?_, ?_⟩
      · unfold top_n_step
        rw [if_neg hlt]
        show (if root.1 < ((|q|), g).1 then _ else _) = _
        rw [if_neg hcmp]
      refine ⟨hA, ?_, ?_, hD, ?_⟩
      · rw [hfull, List.length_append]
        simp
        omega
      · intro e he
        obtain ⟨hp, hr⟩ := hC e he
        exact ⟨List.mem_append.2 (Or.inl hp), hr⟩
      · intro g' hg' hex q' hq' e he
        rcases List.mem_append.1 hg' with hgp' | hgg
        · exact hE g' hgp' hex q' hq' e he
        · have hg'g : g' = g := List.mem_singleton.1 hgg
          have hq'q : q' = q := by
            rw [hg'g] at hq'
            rw [hq'] at hq
            exact DiffResult.val.inj hq
          rw [hq'q]
          exact le_trans (le_of_not_lt hcmp) (hmin e he)

/-- Unfolding equation of the streaming loop. -/
lemma top_n_loop_cons (n : ℕ) (heap : List (ℚ × String)) (g : String)
    (d : DiffResult) (rest : List (String × DiffResult)) :
    top_n_loop n heap ((g, d) :: rest) =
      absDiff d >>= fun v =>
        top_n_step n heap (v, g) >>= fun heap' =>
          top_n_loop n heap' rest := rfl

/-- Streaming a suffix of the catalog through the heap preserves the
invariant, provided no gene has the sentinel outcome. -/
lemma top_n_loop_inv (s : GeneExpressionData) (n : ℕ) (hn : 1 ≤ n)
    (hnd : s.gene_names.Nodup)
    (hsent : ∀ g ∈ s.gene_names, differentialOf s g ≠ .insufficientGroup) :
    ∀ r p h, s.gene_names = p ++ r → TopInv s n p h →
      ∃ h', top_n_loop n h (r.map fun g => (g, differentialOf s g)) = .ok h' ∧
        TopInv s n (p ++ r) h' := by
  intro r
  induction r with
  | nil =>
    intro p h hcat hinv
    refine ⟨h, rfl, ?_⟩
    rw [List.append_nil]
    exact hinv
  | cons g r ih =>
    intro p h hcat hinv
    have hgmem : g ∈ s.gene_names := by
      rw [hcat]
      exact List.mem_append.2 (Or.inr (List.mem_cons_self _ _))
    obtain ⟨q, hq⟩ : ∃ q, differentialOf s g = .val q := by
      cases hd : differentialOf s g with
      | val q => exact ⟨q, rfl⟩
      | insufficientGroup => exact absurd hd (hsent g hgmem)
    have hgp : g ∉ p := by
      have hnd' := hcat ▸ hnd
      have hdisj := (List.nodup_append.1 hnd').2.2
      intro hgp
      exact hdisj hgp (List.mem_cons_self _ _)
    obtain ⟨h1, hstep, hinv1⟩ := TopInv.step hn hq hgp hinv
    obtain ⟨h', hloop, hinv'⟩ := ih (p ++ [g]) h1
      (by rw [hcat, List.append_assoc, List.singleton_append]) hinv1
    refine ⟨h', ?_, ?_⟩
    · rw [List.map_cons, top_n_loop_cons, hq]
      have habs : absDiff (.val q) = .ok (|q|) := by
        show Except.ok (pyAbs q) = _
        rw [pyAbs_eq_abs]
      rw [habs, ok_bind, hstep, ok_bind, hloop]
    · rw [List.append_assoc, List.singleton_append] at hinv'
      exact hinv'

/-- C7 (amended with the counterexample-forced restrictions `n ≥ 1` —
`top_n(0)` raises `IndexError`, see C1 — and the absence of sentinel
genes — a sentinel gene raises `TypeError`, see C2 — plus distinct
catalog names): `top_n(n)` returns a sequence of length
`min n (number of genes)`, sorted descending by absolute differential,
whose entries are `(|differential|, gene)` pairs of distinct catalog
genes, and every catalog gene left out of the sequence has absolute
differential at most every listed entry — i.e. the sequence consists of
the `n` genes of largest absolute differential magnitude, all of them
when `n` is at least the number of genes. -/
theorem C7_top_n_selects_largest (s : GeneExpressionData) (n : ℕ)
    (hn : 1 ≤ n) (hnd : s.gene_names.Nodup)
    (hsent : ∀ g ∈ s.gene_names, differentialOf s g ≠ .insufficientGroup) :
    ∃ l, top_n_differential s n = .ok l ∧
      l.length = min n s.gene_names.length ∧
      List.Sorted descFst l ∧
      (∀ e ∈ l, ∃ g ∈ s.gene_names, ∃ q,
        differentialOf s g = .val q ∧ e = ((|q|), g)) ∧
      (l.map Prod.snd).Nodup ∧
      (∀ g ∈ s.gene_names, g ∉ l.map Prod.snd → ∀ q,
        differentialOf s g = .val q → ∀ e ∈ l, |q| ≤ e.1) := by
  obtain ⟨hf, hloop, hinv⟩ := top_n_loop_inv s n hn hnd hsent s.gene_names [] []
    (List.nil_append _).symm
    ⟨List.sorted_nil, by simp, by simp, List.nodup_nil, by simp⟩
  rw [List.nil_append] at hinv
  obtain ⟨hA, hB, hC, hD, hE⟩ := hinv
  have hperm : List.Perm (hf.insertionSort descFst) hf :=
    List.perm_insertionSort descFst hf
  refine ⟨hf.insertionSort descFst, ?_, ?_, ?_, ?_, ?_, ?_⟩
  · unfold top_n_differential gene_generator
    rw [hloop, ok_bind]
    rfl
  · rw [hperm.length_eq, hB]
  · exact List.sorted_insertionSort descFst hf
  · intro e he
    obtain ⟨hp, q, hq, he1⟩ := hC e (hperm.mem_iff.1 he)
    exact ⟨e.2, hp, q, hq, by rw [← he1]⟩
  · exact (hperm.map Prod.snd).nodup_iff.2 hD
  · intro g hg hex q hq e he
    exact hE g hg (fun hx => hex ((hperm.map Prod.snd).mem_iff.2 hx)) q hq
      e (hperm.mem_iff.1 he)

/-- C7 counterexample: the claim quantifies over every dataset and every
`n`, but no sequence at all is returned in two cases: a sentinel gene
makes `top_n(3)` raise `TypeError` (abs of the sentinel string), and
`n = 0` makes `top_n(0)` raise `IndexError` (`heap[0]` on the empty
heap) on any non-empty catalog. -/
theorem C7_cex_boundary_errors :
    top_n_differential sSentinel 3 = .error .TypeErrorAbsStr ∧
    top_n_differential sMixed 0 = .error .IndexErrorEmptyHeap := by decide

/-- A three-gene store with distinct absolute differentials 1, 5, 3. -/
def sThree : GeneExpressionData :=
  { gene_names := ["G1", "G2", "G3"],
    gene_expression_values :=
      [("G1", [⟨"S1", "normal", 0⟩, ⟨"S2", "HCC", 1⟩]),
       ("G2", [⟨"S1", "normal", 0⟩, ⟨"S2", "HCC", 5⟩]),
       ("G3", [⟨"S1", "normal", 0⟩, ⟨"S2", "HCC", 3⟩])] }

/-- C7 witness: the three-gene store with `n = 2`. -/
theorem C7_top_n_selects_largest_witness :
    ∃ l, top_n_differential sThree 2 = .ok l ∧
      l.length = min 2 sThree.gene_names.length ∧
      List.Sorted descFst l ∧
      (∀ e ∈ l, ∃ g ∈ sThree.gene_names, ∃ q,
        differentialOf sThree g = .val q ∧ e = ((|q|), g)) ∧
      (l.map Prod.snd).Nodup ∧
      (∀ g ∈ sThree.gene_names, g ∉ l.map Prod.snd → ∀ q,
        differentialOf sThree g = .val q → ∀ e ∈ l, |q| ≤ e.1) :=
  C7_top_n_selects_largest sThree 2 (by decide) (by decide) (by decide)
